import Mathlib

/-!
Shallow embedding of the AD core documented by this repository's tutorials:
the non-smooth `maximum` function (whose full Python source is printed in the
advanced-AD notebook), and the DOF bookkeeping, additive distribution and
evaluation engine described by the specification.  Numeric arrays are lists of
rationals; Jacobians are dense row lists (the sparse branch of the source
performs the same row replacement through slice/merge of csr rows).
-/

namespace PorePyAd

/-- Numeric vectors (numpy 1-d arrays) modelled as lists of rationals. -/
abbrev Arr := List ℚ

/-- Jacobian matrices modelled densely as lists of rows. -/
abbrev Mat := List (List ℚ)

/-- A Python numeric value reaching `maximum`: a scalar (float/int) or a 1-d array. -/
inductive Val where
  | scalar (x : ℚ)
  | arr (v : Arr)
deriving DecidableEq

/-- The `jac` field of an `AdArray`: either a plain Python number (the literal `0`
the source stores for constant results) or a matrix. -/
inductive Jac where
  | num (x : ℚ)
  | mat (m : Mat)
deriving DecidableEq

/-- The `pp.ad.AdArray` class: a value/Jacobian pair (the spec's DualValue). -/
structure AdArray where
  val : Val
  jac : Jac
deriving DecidableEq

/-- An argument of `maximum`: an `AdArray` or a plain numpy value. -/
inductive AdInput where
  | ad (a : AdArray)
  | plain (v : Val)
deriving DecidableEq

/-- Result of a `maximum` call: a plain numpy value (when neither input is an
`AdArray`) or an `AdArray`. -/
inductive MaxResult where
  | plainRes (v : Val)
  | adRes (a : AdArray)
deriving DecidableEq

/-- Column count of a dense matrix (its first row's length, 0 when empty). -/
def matCols (m : Mat) : Nat := (m.head?.map List.length).getD 0

/-- Shape `jac.shape`: defined for matrices; accessing `.shape` on the number `0`
raises `AttributeError` in Python, modelled as `none`. -/
def jacShape : Jac → Option (Nat × Nat)
  | .num _ => none
  | .mat m => some (m.length, matCols m)

/-- Model of `sps.csr_matrix(shape)`: an all-zero matrix of the given shape. -/
def zeroMat (r c : Nat) : Mat := List.replicate r (List.replicate c 0)

/-- Model of `np.maximum` on plain numpy inputs: elementwise maximum with scalar
broadcasting; mismatched array lengths raise. -/
def npMaximum : Val → Val → Option Val
  | .scalar x, .scalar y => some (.scalar (max x y))
  | .scalar x, .arr w => some (.arr (w.map (fun y => max x y)))
  | .arr v, .scalar y => some (.arr (v.map (fun x => max x y)))
  | .arr v, .arr w =>
      if v.length = w.length then some (.arr (List.zipWith max v w)) else none

/-- Source lines `inds = (vals[1] >= vals[0]).nonzero()[0]`,
`max_val = vals[0].copy()`, `max_val[inds] = vals[1][inds]`: the copy of the
first value vector with entries overwritten by the second wherever the second
is greater or equal. -/
def maxVals : Arr → Arr → Arr
  | x :: xs, y :: ys => (if x ≤ y then y else x) :: maxVals xs ys
  | _, _ => []

/-- Source lines `max_jac = jacs[0].copy()` followed by replacement of the rows
at `inds` with the corresponding rows of `jacs[1]` (done by fancy indexing in
the dense branch and by `slice_mat`/`merge_matrices` in the sparse branch):
row `i` comes from the second Jacobian iff `vals[1][i] >= vals[0][i]`. -/
def selectRows : Arr → Arr → Mat → Mat → Mat
  | x :: xs, y :: ys, r :: rs, s :: ss =>
      (if x ≤ y then s else r) :: selectRows xs ys rs ss
  | _, _, _, _ => []

/-- The fall-back zero Jacobian `zero_jac`: built eagerly from the first
`AdArray` argument's `jac.shape` (so an `AdArray` whose `jac` is the number `0`
makes the call raise `AttributeError`, modelled as `none`). -/
def computeZeroJac : AdInput → AdInput → Option Jac
  | .ad a, _ => (jacShape a.jac).map (fun p => Jac.mat (zeroMat p.1 p.2))
  | .plain _, .ad b => (jacShape b.jac).map (fun p => Jac.mat (zeroMat p.1 p.2))
  | .plain _, .plain _ => some (Jac.num 0)

/-- The `for var in [var_0, var_1]` collection loop: an `AdArray` contributes
its value and Jacobian, a plain value contributes itself and `zero_jac`. -/
def getValJac (zero_jac : Jac) : AdInput → Val × Jac
  | .ad a => (a.val, a.jac)
  | .plain v => (v, zero_jac)

/-- Tail of `maximum` once both values are numpy arrays (after broadcasting):
mismatched lengths raise in numpy; a numeric `jacs[0]` hits the
`assert np.isclose(jacs[0], 0)` branch and returns a zero Jacobian; a numeric
`jacs[1]` against a matrix `jacs[0]` raises (`0` is not subscriptable /
has no `tocsr`); two matrices undergo the row selection.  The shape guards
delimit the well-formed inputs on which numpy's fancy indexing succeeds. -/
def maximumArrays (a0 a1 : Arr) (j0 j1 : Jac) : Option MaxResult :=
  if a0.length = a1.length then
    match j0, j1 with
    | .num x, .num y =>
        if x = 0 ∧ y = 0 then some (.adRes ⟨.arr (maxVals a0 a1), .num 0⟩) else none
    | .num _, .mat _ => none
    | .mat _, .num _ => none
    | .mat m0, .mat m1 =>
        if m0.length = a0.length ∧ m1.length = a0.length then
          some (.adRes ⟨.arr (maxVals a0 a1), .mat (selectRows a0 a1 m0 m1)⟩)
        else none
  else none

/-- The function `pp.ad.functions.maximum`, translated clause by clause from the printed
source: the both-plain early return through `np.maximum`; the eager `zero_jac`
construction; value/Jacobian collection; the scalar/scalar early return with
Jacobian `0`; scalar broadcasting via `np.ones_like`; and the elementwise
maximum with Jacobian row selection. -/
def maximum (var_0 var_1 : AdInput) : Option MaxResult :=
  match var_0, var_1 with
  | .plain v0, .plain v1 => (npMaximum v0 v1).map MaxResult.plainRes
  | _, _ =>
    match computeZeroJac var_0 var_1 with
    | none => none
    | some zero_jac =>
      let p0 := getValJac zero_jac var_0
      let p1 := getValJac zero_jac var_1
      match p0.1, p1.1 with
      | .scalar x0, .scalar x1 => some (.adRes ⟨.scalar (max x0 x1), .num 0⟩)
      | .scalar x0, .arr w => maximumArrays (List.replicate w.length x0) w p0.2 p1.2
      | .arr v, .scalar x1 => maximumArrays v (List.replicate v.length x1) p0.2 p1.2
      | .arr v, .arr w => maximumArrays v w p0.2 p1.2

/-- Spec-side statement of the value rule for `maximum`: the elementwise
maximum of the two value vectors. -/
def specMaxVal : Arr → Arr → Arr
  | x :: xs, y :: ys => max x y :: specMaxVal xs ys
  | _, _ => []

/-- Spec-side statement of the Jacobian selection rule for `maximum`: each row
is taken from whichever operand has the strictly larger value at that index,
and from the second operand when the two values are equal. -/
def specMaxJac : Arr → Arr → Mat → Mat → Mat
  | x :: xs, y :: ys, r :: rs, s :: ss =>
      (if y < x then r else if x < y then s else s) :: specMaxJac xs ys rs ss
  | _, _, _, _ => []

theorem maxVals_eq_specMaxVal : ∀ v w : Arr, maxVals v w = specMaxVal v w := by
  intro v
  induction v with
  | nil => intro w; cases w <;> rfl
  | cons x xs ih =>
      intro w
      cases w with
      | nil => rfl
      | cons y ys =>
          simp only [maxVals, specMaxVal, ih, max_def]

theorem selectRows_eq_specMaxJac :
    ∀ (v w : Arr) (m0 m1 : Mat), selectRows v w m0 m1 = specMaxJac v w m0 m1 := by
  intro v
  induction v with
  | nil => intro w m0 m1; cases w <;> cases m0 <;> cases m1 <;> rfl
  | cons x xs ih =>
      intro w m0 m1
      cases w with
      | nil => cases m0 <;> cases m1 <;> rfl
      | cons y ys =>
          cases m0 with
          | nil => cases m1 <;> rfl
          | cons r rs =>
              cases m1 with
              | nil => rfl
              | cons s ss =>
                  simp only [selectRows, specMaxJac, ih]
                  congr 1
                  rcases lt_trichotomy x y with h | h | h
                  · rw [if_pos h.le, if_neg (not_lt.mpr h.le), if_pos h]
                  · subst h
                    rw [if_pos le_rfl]
                    simp
                  · rw [if_neg (not_le.mpr h), if_pos h]

theorem specMaxVal_length :
    ∀ v w : Arr, w.length = v.length → (specMaxVal v w).length = v.length := by
  intro v
  induction v with
  | nil =>
      intro w h
      cases w with
      | nil => rfl
      | cons y ys => simp at h
  | cons x xs ih =>
      intro w h
      cases w with
      | nil => simp at h
      | cons y ys =>
          simp only [specMaxVal, List.length_cons, ih ys (by simpa using h)]

theorem maximum_ad_ad_eq (v0 v1 : Arr) (m0 m1 : Mat)
    (hlen : v1.length = v0.length) (h0 : m0.length = v0.length)
    (h1 : m1.length = v0.length) :
    maximum (.ad ⟨.arr v0, .mat m0⟩) (.ad ⟨.arr v1, .mat m1⟩) =
      some (.adRes ⟨.arr (maxVals v0 v1), .mat (selectRows v0 v1 m0 m1)⟩) := by
  simp [maximum, computeZeroJac, jacShape, getValJac, maximumArrays, hlen, h0, h1]

theorem maximum_ad_plainArr_eq (v w : Arr) (m : Mat)
    (hlen : w.length = v.length) (hm : m.length = v.length) :
    maximum (.ad ⟨.arr v, .mat m⟩) (.plain (.arr w)) =
      some (.adRes ⟨.arr (maxVals v w),
        .mat (selectRows v w m (zeroMat m.length (matCols m)))⟩) := by
  simp [maximum, computeZeroJac, jacShape, getValJac, maximumArrays, hlen, hm,
    zeroMat]

theorem maximum_plainArr_ad_eq (v w : Arr) (m : Mat)
    (hlen : w.length = v.length) (hm : m.length = v.length) :
    maximum (.plain (.arr v)) (.ad ⟨.arr w, .mat m⟩) =
      some (.adRes ⟨.arr (maxVals v w),
        .mat (selectRows v w (zeroMat m.length (matCols m)) m)⟩) := by
  simp [maximum, computeZeroJac, jacShape, getValJac, maximumArrays, hlen, hm,
    zeroMat]

theorem maximum_plain_plain_arr_eq (v w : Arr) (hlen : w.length = v.length) :
    maximum (.plain (.arr v)) (.plain (.arr w)) =
      some (.plainRes (.arr (List.zipWith max v w))) := by
  simp [maximum, npMaximum, hlen]

theorem maximum_scalar_ad_eq (x : ℚ) (w : Arr) (m : Mat)
    (hm : m.length = w.length) :
    maximum (.plain (.scalar x)) (.ad ⟨.arr w, .mat m⟩) =
      some (.adRes ⟨.arr (maxVals (List.replicate w.length x) w),
        .mat (selectRows (List.replicate w.length x) w
          (zeroMat m.length (matCols m)) m)⟩) := by
  simp [maximum, computeZeroJac, jacShape, getValJac, maximumArrays, hm, zeroMat]

theorem maximum_ad_scalar_eq (x : ℚ) (v : Arr) (m : Mat)
    (hm : m.length = v.length) :
    maximum (.ad ⟨.arr v, .mat m⟩) (.plain (.scalar x)) =
      some (.adRes ⟨.arr (maxVals v (List.replicate v.length x)),
        .mat (selectRows v (List.replicate v.length x) m
          (zeroMat m.length (matCols m)))⟩) := by
  simp [maximum, computeZeroJac, jacShape, getValJac, maximumArrays, hm, zeroMat]

/-- C1: for `maximum(a, b)` on two AdArrays of equal length, the returned value
is the elementwise maximum of the two value vectors, and each Jacobian row is
taken from whichever operand has the strictly larger value at that index, with
ties taken from the second operand `b`. -/
theorem maximum_jacobian_selection (v0 v1 : Arr) (m0 m1 : Mat)
    (hlen : v1.length = v0.length) (h0 : m0.length = v0.length)
    (h1 : m1.length = v0.length) :
    maximum (.ad ⟨.arr v0, .mat m0⟩) (.ad ⟨.arr v1, .mat m1⟩) =
      some (.adRes ⟨.arr (specMaxVal v0 v1), .mat (specMaxJac v0 v1 m0 m1)⟩) := by
  rw [maximum_ad_ad_eq v0 v1 m0 m1 hlen h0 h1, maxVals_eq_specMaxVal,
    selectRows_eq_specMaxJac]

theorem maximum_jacobian_selection_witness :
    maximum (.ad ⟨.arr [1, 5, 2], .mat [[1, 0], [0, 1], [2, 2]]⟩)
        (.ad ⟨.arr [3, 5, 0], .mat [[5, 5], [7, 7], [9, 9]]⟩) =
      some (.adRes ⟨.arr [3, 5, 2], .mat [[5, 5], [7, 7], [2, 2]]⟩) := by
  rw [maximum_jacobian_selection [1, 5, 2] [3, 5, 0] [[1, 0], [0, 1], [2, 2]]
    [[5, 5], [7, 7], [9, 9]] (by decide) (by decide) (by decide)]
  decide

/-- C2: the result of `maximum` is an AdArray when at least one argument is an
AdArray and a plain numpy array otherwise, and a plain argument enters the row
selection with the all-zero Jacobian `zeroMat`. -/
theorem maximum_output_kind (v w : Arr) (m m2 : Mat)
    (hlen : w.length = v.length) (hm : m.length = v.length)
    (hm2 : m2.length = v.length) :
    (maximum (.plain (.arr v)) (.plain (.arr w)) =
        some (.plainRes (.arr (List.zipWith max v w))))
    ∧ (maximum (.ad ⟨.arr v, .mat m⟩) (.plain (.arr w)) =
        some (.adRes ⟨.arr (specMaxVal v w),
          .mat (specMaxJac v w m (zeroMat m.length (matCols m)))⟩))
    ∧ (maximum (.plain (.arr v)) (.ad ⟨.arr w, .mat m⟩) =
        some (.adRes ⟨.arr (specMaxVal v w),
          .mat (specMaxJac v w (zeroMat m.length (matCols m)) m)⟩))
    ∧ (maximum (.ad ⟨.arr v, .mat m⟩) (.ad ⟨.arr w, .mat m2⟩) =
        some (.adRes ⟨.arr (specMaxVal v w), .mat (specMaxJac v w m m2)⟩)) := by
  refine ⟨maximum_plain_plain_arr_eq v w hlen, ?_, ?_, ?_⟩
  · rw [maximum_ad_plainArr_eq v w m hlen hm, maxVals_eq_specMaxVal,
      selectRows_eq_specMaxJac]
  · rw [maximum_plainArr_ad_eq v w m hlen hm, maxVals_eq_specMaxVal,
      selectRows_eq_specMaxJac]
  · rw [maximum_ad_ad_eq v w m m2 hlen hm hm2, maxVals_eq_specMaxVal,
      selectRows_eq_specMaxJac]

theorem maximum_output_kind_witness :
    (maximum (.plain (.arr [1, 4])) (.plain (.arr [2, 3])) =
        some (.plainRes (.arr [2, 4])))
    ∧ (maximum (.ad ⟨.arr [1, 4], .mat [[1, 1], [2, 2]]⟩) (.plain (.arr [2, 3])) =
        some (.adRes ⟨.arr [2, 4], .mat [[0, 0], [2, 2]]⟩)) := by
  have h := maximum_output_kind [1, 4] [2, 3] [[1, 1], [2, 2]] [[3, 3], [4, 4]]
    (by decide) (by decide) (by decide)
  refine ⟨?_, ?_⟩
  · rw [h.1]
    decide
  · rw [h.2.1]
    decide

/-- C6: when exactly one argument of `maximum` is a plain scalar constant and
the other is array-shaped, the scalar is broadcast to the array's length before
the elementwise maximum is taken, and the result has the array operand's
length. -/
theorem maximum_scalar_broadcast (x : ℚ) (w : Arr) (m : Mat)
    (hm : m.length = w.length) :
    (maximum (.plain (.scalar x)) (.ad ⟨.arr w, .mat m⟩) =
        some (.adRes ⟨.arr (specMaxVal (List.replicate w.length x) w),
          .mat (specMaxJac (List.replicate w.length x) w
            (zeroMat m.length (matCols m)) m)⟩))
    ∧ (maximum (.ad ⟨.arr w, .mat m⟩) (.plain (.scalar x)) =
        some (.adRes ⟨.arr (specMaxVal w (List.replicate w.length x)),
          .mat (specMaxJac w (List.replicate w.length x) m
            (zeroMat m.length (matCols m)))⟩))
    ∧ (specMaxVal (List.replicate w.length x) w).length = w.length
    ∧ (specMaxVal w (List.replicate w.length x)).length = w.length := by
  refine ⟨?_, ?_, ?_, ?_⟩
  · rw [maximum_scalar_ad_eq x w m hm, maxVals_eq_specMaxVal,
      selectRows_eq_specMaxJac]
  · rw [maximum_ad_scalar_eq x w m hm, maxVals_eq_specMaxVal,
      selectRows_eq_specMaxJac]
  · have := specMaxVal_length (List.replicate w.length x) w
    simp only [List.length_replicate] at this
    exact this trivial
  · exact specMaxVal_length w (List.replicate w.length x) (by simp)

theorem maximum_scalar_broadcast_witness :
    maximum (.plain (.scalar 2)) (.ad ⟨.arr [1, 3], .mat [[1, 0], [0, 1]]⟩) =
      some (.adRes ⟨.arr [2, 3], .mat [[0, 0], [0, 1]]⟩) := by
  rw [(maximum_scalar_broadcast 2 [1, 3] [[1, 0], [0, 1]] (by decide)).1]
  decide

/-- Discriminator: does a `maximum` call return an AdArray (DualValue)? -/
def isAdRes : Option MaxResult → Bool
  | some (.adRes _) => true
  | _ => false

/-- C9 counterexample: a call where both underlying values are plain Python
scalars and neither argument is an AdArray returns a plain numpy scalar, not a
DualValue, and its Jacobian-less value is the scalar maximum. -/
theorem maximum_plain_scalars_counterexample :
    isAdRes (maximum (.plain (.scalar 1)) (.plain (.scalar 2))) = false
    ∧ maximum (.plain (.scalar 1)) (.plain (.scalar 2)) =
        some (.plainRes (.scalar 2)) := by
  decide

/-- C9 (amended): when at least one argument is an AdArray carrying a matrix
Jacobian and both underlying values are plain scalars, the result is an
AdArray whose value is the scalar maximum and whose Jacobian is exactly 0 —
the input Jacobian is dropped even when nonzero. -/
theorem maximum_scalar_scalar_dropped_jac (x0 x1 : ℚ) (m0 m1 : Mat) :
    (maximum (.ad ⟨.scalar x0, .mat m0⟩) (.plain (.scalar x1)) =
        some (.adRes ⟨.scalar (max x0 x1), .num 0⟩))
    ∧ (maximum (.plain (.scalar x0)) (.ad ⟨.scalar x1, .mat m1⟩) =
        some (.adRes ⟨.scalar (max x0 x1), .num 0⟩))
    ∧ (maximum (.ad ⟨.scalar x0, .mat m0⟩) (.ad ⟨.scalar x1, .mat m1⟩) =
        some (.adRes ⟨.scalar (max x0 x1), .num 0⟩)) := by
  refine ⟨?_, ?_, ?_⟩ <;>
    simp [maximum, computeZeroJac, jacShape, getValJac]

/-- A heap of numpy objects: mutable 1-d arrays and mutable matrices,
addressed by index.  Used to track which objects `maximum` writes to. -/
structure Heap where
  arrs : List Arr
  mats : List Mat
deriving DecidableEq

/-- Read the array stored at address `i`. -/
def readArr (h : Heap) (i : Nat) : Option Arr := h.arrs.get? i

/-- Read the matrix stored at address `i`. -/
def readMat (h : Heap) (i : Nat) : Option Mat := h.mats.get? i

/-- Call of `.copy()` on an array: allocate a fresh array object. -/
def allocArr (h : Heap) (v : Arr) : Heap × Nat :=
  (⟨h.arrs ++ [v], h.mats⟩, h.arrs.length)

/-- Call of `.copy()` on a matrix: allocate a fresh matrix object. -/
def allocMat (h : Heap) (m : Mat) : Heap × Nat :=
  (⟨h.arrs, h.mats ++ [m]⟩, h.mats.length)

/-- In-place write (`max_val[inds] = ...`) to the array at address `i`. -/
def writeArr (h : Heap) (i : Nat) (v : Arr) : Heap := ⟨h.arrs.set i v, h.mats⟩

/-- In-place write (`merge_matrices(max_jac, ...)`) to the matrix at `i`. -/
def writeMat (h : Heap) (i : Nat) (m : Mat) : Heap := ⟨h.arrs, h.mats.set i m⟩

/-- Imperative model of the array/matrix tail of `maximum` (the lines from
`inds = (vals[1] >= vals[0]).nonzero()[0]` to the final return): reads the two
value arrays and two Jacobians, copies `vals[0]` into a fresh array and
overwrites the copy at `inds`, copies `jacs[0]` into a fresh matrix and merges
the selected rows of `jacs[1]` into that copy in place.  Returns the final
heap and the addresses of the two fresh result objects. -/
def maximumImp (h : Heap) (vref0 jref0 vref1 jref1 : Nat) :
    Option (Heap × Nat × Nat) :=
  match readArr h vref0, readArr h vref1, readMat h jref0, readMat h jref1 with
  | some a0, some a1, some m0, some m1 =>
      if a0.length = a1.length ∧ m0.length = a0.length ∧ m1.length = a0.length
      then
        let alloc0 := allocArr h a0
        let h2 := writeArr alloc0.1 alloc0.2 (maxVals a0 a1)
        let alloc1 := allocMat h2 m0
        let h4 := writeMat alloc1.1 alloc1.2 (selectRows a0 a1 m0 m1)
        some (h4, alloc0.2, alloc1.2)
      else none
  | _, _, _, _ => none

theorem get?_append_left {α : Type} (l l' : List α) (i : Nat) (h : i < l.length) :
    (l ++ l').get? i = l.get? i := by
  rw [List.get?_eq_getElem?, List.get?_eq_getElem?, List.getElem?_append,
    if_pos h]

theorem get?_set_ne {α : Type} (l : List α) (i j : Nat) (v : α) (h : i ≠ j) :
    (l.set i v).get? j = l.get? j := by
  rw [List.get?_eq_getElem?, List.get?_eq_getElem?, List.getElem?_set_ne h]

/-- C10: `maximum` never mutates its arguments — after the call, the value
vectors and Jacobian matrices of both operands read back unchanged; only the
freshly allocated copies were written. -/
theorem maximum_no_argument_mutation (h : Heap)
    (vref0 jref0 vref1 jref1 : Nat) (h' : Heap) (rv rj : Nat)
    (hrun : maximumImp h vref0 jref0 vref1 jref1 = some (h', rv, rj)) :
    readArr h' vref0 = readArr h vref0 ∧ readArr h' vref1 = readArr h vref1
    ∧ readMat h' jref0 = readMat h jref0
    ∧ readMat h' jref1 = readMat h jref1 := by
  unfold maximumImp at hrun
  split at hrun
  next a0 a1 m0 m1 ha0 ha1 hm0 hm1 =>
    split at hrun
    next hg =>
      simp only [allocArr, allocMat, writeArr, writeMat, Option.some.injEq,
        Prod.mk.injEq] at hrun
      obtain ⟨hheap, -, -⟩ := hrun
      have hv0 : vref0 < h.arrs.length := by
        by_contra hc
        rw [readArr, List.get?_eq_none.mpr (Nat.le_of_not_lt hc)] at ha0
        exact Option.noConfusion ha0
      have hv1 : vref1 < h.arrs.length := by
        by_contra hc
        rw [readArr, List.get?_eq_none.mpr (Nat.le_of_not_lt hc)] at ha1
        exact Option.noConfusion ha1
      have hj0 : jref0 < h.mats.length := by
        by_contra hc
        rw [readMat, List.get?_eq_none.mpr (Nat.le_of_not_lt hc)] at hm0
        exact Option.noConfusion hm0
      have hj1 : jref1 < h.mats.length := by
        by_contra hc
        rw [readMat, List.get?_eq_none.mpr (Nat.le_of_not_lt hc)] at hm1
        exact Option.noConfusion hm1
      have harr : h'.arrs = (h.arrs ++ [a0]).set h.arrs.length (maxVals a0 a1) := by
        rw [← hheap]
      have hmat : h'.mats = (h.mats ++ [m0]).set h.mats.length
          (selectRows a0 a1 m0 m1) := by
        rw [← hheap]
      refine ⟨?_, ?_, ?_, ?_⟩
      · rw [readArr, readArr, harr, get?_set_ne _ _ _ _ (by omega),
          get?_append_left _ _ _ hv0]
      · rw [readArr, readArr, harr, get?_set_ne _ _ _ _ (by omega),
          get?_append_left _ _ _ hv1]
      · rw [readMat, readMat, hmat, get?_set_ne _ _ _ _ (by omega),
          get?_append_left _ _ _ hj0]
      · rw [readMat, readMat, hmat, get?_set_ne _ _ _ _ (by omega),
          get?_append_left _ _ _ hj1]
    next hg => exact absurd hrun (by simp)
  next => exact absurd hrun (by simp)

theorem maximum_no_argument_mutation_witness :
    readArr
        ⟨[[1, 2], [3, 1], [3, 2]], [[[1, 0], [0, 1]], [[2, 0], [0, 2]],
          [[2, 0], [0, 1]]]⟩ 0 = readArr ⟨[[1, 2], [3, 1]], [[[1, 0], [0, 1]],
          [[2, 0], [0, 2]]]⟩ 0
    ∧ readArr
        ⟨[[1, 2], [3, 1], [3, 2]], [[[1, 0], [0, 1]], [[2, 0], [0, 2]],
          [[2, 0], [0, 1]]]⟩ 1 = readArr ⟨[[1, 2], [3, 1]], [[[1, 0], [0, 1]],
          [[2, 0], [0, 2]]]⟩ 1
    ∧ readMat
        ⟨[[1, 2], [3, 1], [3, 2]], [[[1, 0], [0, 1]], [[2, 0], [0, 2]],
          [[2, 0], [0, 1]]]⟩ 0 = readMat ⟨[[1, 2], [3, 1]], [[[1, 0], [0, 1]],
          [[2, 0], [0, 2]]]⟩ 0
    ∧ readMat
        ⟨[[1, 2], [3, 1], [3, 2]], [[[1, 0], [0, 1]], [[2, 0], [0, 2]],
          [[2, 0], [0, 1]]]⟩ 1 = readMat ⟨[[1, 2], [3, 1]], [[[1, 0], [0, 1]],
          [[2, 0], [0, 2]]]⟩ 1 :=
  maximum_no_argument_mutation
    ⟨[[1, 2], [3, 1]], [[[1, 0], [0, 1]], [[2, 0], [0, 2]]]⟩ 0 0 1 1
    ⟨[[1, 2], [3, 1], [3, 2]], [[[1, 0], [0, 1]], [[2, 0], [0, 2]],
      [[2, 0], [0, 1]]]⟩ 2 2 (by decide)

/-- An error raised when a variable has no stored values on a grid entity:
carries the variable name, the requested time level and the entity identity
(mirroring the message of the `KeyError` re-raised by
`DofManager.get_variable_values`). -/
structure MissingValueError where
  varName : String
  fromIterate : Bool
  grid : Nat
deriving DecidableEq

/-- The state store of one grid entity: the `data[pp.STATE]` mapping and the
nested `data[pp.STATE][pp.ITERATE]` mapping, each from variable name to
values. -/
structure EntityData where
  state : List (String × Arr)
  iterate : List (String × Arr)
deriving DecidableEq

/-- Dictionary lookup in a state store. -/
def lookupStore (s : List (String × Arr)) (name : String) : Option Arr :=
  (s.find? (fun p => p.1 = name)).map (·.2)

/-- Modelled from the spec: `value_slice(variable, entity, iterate_or_previous)`
returns the stored values for that variable on that entity; the re-raise on
`KeyError` (visible in the printed `DofManager.get_variable_values` source,
which appends `data[pp.STATE][name].copy()` or the `ITERATE` variant and
re-raises carrying the variable name, `from_iterate` and the grid) is modelled
as an `Except.error` carrying the same identities. -/
def valueSlice (name : String) (grid : Nat) (data : EntityData)
    (from_iterate : Bool) : Except MissingValueError Arr :=
  match lookupStore (if from_iterate then data.iterate else data.state) name with
  | some v => .ok v
  | none => .error ⟨name, from_iterate, grid⟩

/-- C5: when the entity's state store has no entry for the variable, reading
its values fails with an error carrying both the variable name and the entity
identity, and never returns a silently defaulted value. -/
theorem value_slice_missing_error (name : String) (grid : Nat)
    (data : EntityData) (fi : Bool)
    (h : lookupStore (if fi then data.iterate else data.state) name = none) :
    valueSlice name grid data fi = .error ⟨name, fi, grid⟩
    ∧ ∀ v : Arr, valueSlice name grid data fi ≠ .ok v := by
  have hv : valueSlice name grid data fi = .error ⟨name, fi, grid⟩ := by
    rw [valueSlice, h]
  exact ⟨hv, fun v hc => by rw [hv] at hc; exact Except.noConfusion hc⟩

theorem value_slice_missing_error_witness :
    valueSlice ("pressure") 3 ⟨[("mortar_flux", [1, 2])], []⟩ false =
      .error ⟨"pressure", false, 3⟩ :=
  (value_slice_missing_error ("pressure") 3 ⟨[("mortar_flux", [1, 2])], []⟩
    false (by decide)).1

/-- A DualValue passed up the evaluation tree: value vector and Jacobian. -/
abbrev DualVal := Arr × Mat

/-- Dot product of two vectors. -/
def dotProd (r v : Arr) : ℚ := (List.zipWith (· * ·) r v).sum

/-- Matrix–vector product. -/
def matVec (M : Mat) (v : Arr) : Arr := M.map (fun r => dotProd r v)

/-- Matrix–matrix product. -/
def matMulMat (M N : Mat) : Mat :=
  M.map (fun r => N.transpose.map (fun c => dotProd r c))

/-- Sparse matrix addition. -/
def matAdd (M N : Mat) : Mat :=
  List.zipWith (fun r s => List.zipWith (· + ·) r s) M N

/-- Sparse matrix subtraction. -/
def matSub (M N : Mat) : Mat :=
  List.zipWith (fun r s => List.zipWith (· - ·) r s) M N

/-- Row `k` of the `n × n` identity matrix. -/
def unitRow (n k : Nat) : Arr := (List.range n).map (fun j => if j = k then 1 else 0)

/-- The identity restricted to the column range `[ofs, ofs + len)` of a global
vector with `total` unknowns: the Jacobian of a variable leaf. -/
def restrictedIdentity (total ofs len : Nat) : Mat :=
  (List.range len).map (fun i => unitRow total (ofs + i))

/-- Modelled from the spec: the Operator tree (§3) — variable references,
constants, sums, differences, scalar products, application of a cached
discretization matrix, the non-smooth `maximum` function node, and generic
wrapped-function nodes.  The source of the Operator class itself is not under
src; only `maximum` and the printed call sites are. -/
inductive Operator where
  | varRef (ofs len : Nat)
  | const (v : Arr)
  | add (a b : Operator)
  | sub (a b : Operator)
  | scalarMul (c : ℚ) (a : Operator)
  | matApply (key : String) (a : Operator)
  | funcMax (a b : Operator)
  | func (g : DualVal → Option DualVal) (a : Operator)

/-- Modelled from the spec: `evaluate(global_state)` (§4.2) — one bottom-up
traversal producing a DualValue per node: identity-restricted Jacobian for
variable leaves, zero Jacobian for constants, shape-checked addition and
subtraction, exact linear chain rule for matrix application, and the wrapped
function's own rule for function application (`maximum` is the one translated
from the source). -/
def evaluate (total : Nat) (cache : List (String × Mat)) (state : Arr) :
    Operator → Option DualVal
  | .varRef ofs len =>
      if ofs + len ≤ state.length then
        some ((state.drop ofs).take len, restrictedIdentity total ofs len)
      else none
  | .const v => some (v, zeroMat v.length total)
  | .add a b => do
      let d0 ← evaluate total cache state a
      let d1 ← evaluate total cache state b
      if d0.1.length = d1.1.length then
        some (List.zipWith (· + ·) d0.1 d1.1, matAdd d0.2 d1.2)
      else none
  | .sub a b => do
      let d0 ← evaluate total cache state a
      let d1 ← evaluate total cache state b
      if d0.1.length = d1.1.length then
        some (List.zipWith (· - ·) d0.1 d1.1, matSub d0.2 d1.2)
      else none
  | .scalarMul c a => do
      let d ← evaluate total cache state a
      some (d.1.map (fun x => c * x), d.2.map (fun r => r.map (fun x => c * x)))
  | .matApply key a => do
      let M ← (cache.find? (fun p => p.1 = key)).map (·.2)
      let d ← evaluate total cache state a
      some (matVec M d.1, matMulMat M d.2)
  | .funcMax a b => do
      let d0 ← evaluate total cache state a
      let d1 ← evaluate total cache state b
      match maximum (.ad ⟨.arr d0.1, .mat d0.2⟩) (.ad ⟨.arr d1.1, .mat d1.2⟩) with
      | some (.adRes ⟨.arr v, .mat m⟩) => some (v, m)
      | _ => none
  | .func g a => do
      let d ← evaluate total cache state a
      g d

/-- C3: evaluation is deterministic — two calls of `evaluate` on the same
Operator with equal global state vectors and equal cached discretization
matrices return identical value vectors and Jacobians, including through the
non-smooth `maximum` selection. -/
theorem evaluate_deterministic (op : Operator) (total : Nat)
    (c1 c2 : List (String × Mat)) (s1 s2 : Arr) (hc : c1 = c2) (hs : s1 = s2) :
    evaluate total c1 s1 op = evaluate total c2 s2 op := by
  rw [hc, hs]

/-- A concrete Operator exercising the non-smooth maximum, with a tie in the
second component. -/
def opSample : Operator := .funcMax (.varRef 0 2) (.const [3, 2])

theorem evaluate_deterministic_witness :
    evaluate 2 [] [1, 2] opSample = evaluate 2 [] [1, 2] opSample
    ∧ evaluate 2 [] [1, 2] opSample = some ([3, 2], [[0, 0], [0, 0]]) :=
  ⟨evaluate_deterministic opSample 2 [] [] [1, 2] [1, 2] rfl rfl, by decide⟩

/-- Modelled from the spec: partial application of a wrapped function binds a
non-differentiable configuration argument (e.g. the fixed vector
dimensionality `nd - 1` handed to `l2_norm` in `fracture_gap`), specializing
the wrapper per call site without re-deriving the function. -/
def bindConfig (f : Nat → DualVal → Option DualVal) (c : Nat) :
    DualVal → Option DualVal :=
  fun d => f c d

/-- C8: a Function node built from a partially applied wrapped function,
applied to an Operator argument, evaluates exactly as the unbound function
would with that configuration value supplied. -/
theorem function_config_binding (f : Nat → DualVal → Option DualVal) (c : Nat)
    (a : Operator) (total : Nat) (cache : List (String × Mat)) (state : Arr) :
    evaluate total cache state (.func (bindConfig f c) a) =
      (evaluate total cache state a).bind (fun d => f c d)
    ∧ evaluate total cache state (.func (bindConfig f c) a) =
        evaluate total cache state (.func (fun d => f c d) a) :=
  ⟨rfl, rfl⟩

/-- One DOF-manager assignment: a variable name, a grid-entity index, and the
(offset, length) range owned in the global unknown vector. -/
structure DofEntry where
  var : String
  entity : Nat
  offset : Nat
  length : Nat
deriving DecidableEq

/-- Does the range of entry `e` cover global index `k`? -/
def covers (e : DofEntry) (k : Nat) : Bool :=
  decide (e.offset ≤ k) && decide (k < e.offset + e.length)

/-- Number of assigned ranges covering global index `k`. -/
def coverCount (es : List DofEntry) (k : Nat) : Nat :=
  es.countP (fun e => covers e k)

/-- Modelled from the spec: the DOF Manager's registration loop (§4.1) —
requests are processed in order, each accepted (variable, entity) pair gets
the next free contiguous range, and registering the same pair twice fails with
DuplicateRegistration (`none`).  `seen` holds already registered pairs, `ofs`
the next free offset; the returned number is `total_dofs`. -/
def registerAux :
    List (String × Nat × Nat) → List (String × Nat) → Nat →
      Option (List DofEntry × Nat)
  | [], _, ofs => some ([], ofs)
  | (v, ent, sz) :: rest, seen, ofs =>
      if (v, ent) ∈ seen then none
      else
        match registerAux rest ((v, ent) :: seen) (ofs + sz) with
        | none => none
        | some (es, total) => some (⟨v, ent, ofs, sz⟩ :: es, total)

/-- Modelled from the spec: a full registration sequence starting from the
empty layout. -/
def registerAll (reqs : List (String × Nat × Nat)) :
    Option (List DofEntry × Nat) :=
  registerAux reqs [] 0

theorem registerAux_partition :
    ∀ (reqs : List (String × Nat × Nat)) (seen : List (String × Nat))
      (ofs : Nat) (es : List DofEntry) (total : Nat),
      registerAux reqs seen ofs = some (es, total) →
      ofs ≤ total ∧
        ∀ k : Nat, coverCount es k = if ofs ≤ k ∧ k < total then 1 else 0 := by
  intro reqs
  induction reqs with
  | nil =>
      intro seen ofs es total hr
      simp only [registerAux, Option.some.injEq, Prod.mk.injEq] at hr
      obtain ⟨h1, h2⟩ := hr
      subst h1
      subst h2
      refine ⟨le_refl _, fun k => ?_⟩
      rw [if_neg (by omega), coverCount, List.countP_nil]
  | cons head rest ih =>
      obtain ⟨v, ent, sz⟩ := head
      intro seen ofs es total hr
      rw [registerAux] at hr
      split at hr
      · exact absurd hr (by simp)
      · split at hr
        next hrec => exact absurd hr (by simp)
        next es' total' hrec =>
          simp only [Option.some.injEq, Prod.mk.injEq] at hr
          obtain ⟨hes, htot⟩ := hr
          subst hes
          subst htot
          obtain ⟨hle, hcov⟩ := ih ((v, ent) :: seen) (ofs + sz) es' total' hrec
          refine ⟨by omega, fun k => ?_⟩
          rw [coverCount, List.countP_cons]
          have hx := hcov k
          rw [coverCount] at hx
          rw [hx]
          have hcv : (covers ⟨v, ent, ofs, sz⟩ k = true) ↔
              (ofs ≤ k ∧ k < ofs + sz) := by
            simp [covers]
          by_cases hck : ofs ≤ k ∧ k < ofs + sz
          · rw [if_pos (hcv.mpr hck), if_neg (by omega), if_pos (by omega)]
          · rw [if_neg (fun hc => hck (hcv.mp hc))]
            by_cases h3 : ofs + sz ≤ k ∧ k < total'
            · rw [if_pos h3, if_pos (by omega)]
            · rw [if_neg h3, if_neg (by omega)]

/-- C4: for every registration sequence accepted by the DOF Manager, the
assigned (offset, length) ranges partition `[0, total_dofs)` exactly once —
each index below `total_dofs` is covered by exactly one contiguous range and
no index at or above `total_dofs` is covered by any. -/
theorem dof_partition (reqs : List (String × Nat × Nat))
    (es : List DofEntry) (total : Nat)
    (h : registerAll reqs = some (es, total)) :
    (∀ k, k < total → coverCount es k = 1)
    ∧ ∀ k, total ≤ k → coverCount es k = 0 := by
  obtain ⟨-, hcov⟩ := registerAux_partition reqs [] 0 es total h
  refine ⟨fun k hk => ?_, fun k hk => ?_⟩
  · rw [hcov k, if_pos ⟨Nat.zero_le k, hk⟩]
  · rw [hcov k, if_neg (by omega)]

theorem dof_partition_witness :
    coverCount [⟨"pressure", 0, 0, 3⟩, ⟨"pressure", 1, 3, 2⟩,
        ⟨"mortar_flux", 2, 5, 2⟩] 4 = 1
    ∧ coverCount [⟨"pressure", 0, 0, 3⟩, ⟨"pressure", 1, 3, 2⟩,
        ⟨"mortar_flux", 2, 5, 2⟩] 9 = 0 :=
  ⟨(dof_partition [("pressure", 0, 3), ("pressure", 1, 2), ("mortar_flux", 2, 2)]
      [⟨"pressure", 0, 0, 3⟩, ⟨"pressure", 1, 3, 2⟩, ⟨"mortar_flux", 2, 5, 2⟩] 7
      (by decide)).1 4 (by decide),
   (dof_partition [("pressure", 0, 3), ("pressure", 1, 2), ("mortar_flux", 2, 2)]
      [⟨"pressure", 0, 0, 3⟩, ⟨"pressure", 1, 3, 2⟩, ⟨"mortar_flux", 2, 5, 2⟩] 7
      (by decide)).2 9 (by decide)⟩

/-- The stored current-iterate values of the core, keyed by
(variable name, entity index). -/
abbrev VarStore := List ((String × Nat) × Arr)

/-- Lookup of a stored variable value. -/
def lookupVal (vals : VarStore) (key : String × Nat) : Option Arr :=
  (vals.find? (fun p => p.1 = key)).map (·.2)

/-- The increment slice `increment[offset : offset + length]`. -/
def sliceArr (inc : Arr) (ofs len : Nat) : Arr := (inc.drop ofs).take len

/-- Elementwise addition of two value vectors. -/
def addArr (a b : Arr) : Arr := List.zipWith (· + ·) a b

/-- Additive in-place write of `d` onto the value stored under `key`. -/
def updateVal (vals : VarStore) (key : String × Nat) (d : Arr) : VarStore :=
  vals.map (fun p => if p.1 = key then (p.1, addArr p.2 d) else p)

/-- The (variable, entity) key owned by a DOF entry. -/
def entryKey (e : DofEntry) : String × Nat := (e.var, e.entity)

/-- Modelled from the spec: `distribute(increment, additive: true)`
(`DofManager.distribute_variable(solution, additive=True)` in the tutorial) —
for each registered (variable, entity) range, the corresponding slice of the
solved increment is added onto the stored value (increment, not overwrite). -/
def distributeAdditive : List DofEntry → Arr → VarStore → VarStore
  | [], _, vals => vals
  | e :: rest, inc, vals =>
      distributeAdditive rest inc
        (updateVal vals (entryKey e) (sliceArr inc e.offset e.length))

/-- The core's mutable state: variable values plus the discretization-matrix
cache of the entity state stores. -/
structure CoreState where
  values : VarStore
  cache : List (String × Mat)

/-- Cache write for one discretization key (overwrite or append). -/
def updateCache (cache : List (String × Mat)) (key : String) (m : Mat) :
    List (String × Mat) :=
  if cache.any (fun p => p.1 = key) then
    cache.map (fun p => if p.1 = key then (key, m) else p)
  else cache ++ [(key, m)]

/-- The discretization keys referenced by an Operator tree. -/
def opDiscrKeys : Operator → List String
  | .varRef _ _ => []
  | .const _ => []
  | .add a b => opDiscrKeys a ++ opDiscrKeys b
  | .sub a b => opDiscrKeys a ++ opDiscrKeys b
  | .scalarMul _ a => opDiscrKeys a
  | .matApply key a => key :: opDiscrKeys a
  | .funcMax a b => opDiscrKeys a ++ opDiscrKeys b
  | .func _ a => opDiscrKeys a

/-- Modelled from the spec: `discretize` (§4.2) walks the tree and caches each
referenced discretization matrix under its fixed key in the entity state
store; it writes only cache keys, never variable values. -/
def discretize (ext : String → Mat) (op : Operator) (st : CoreState) :
    CoreState :=
  ⟨st.values, (opDiscrKeys op).foldl (fun c k => updateCache c k (ext k)) st.cache⟩

theorem lookupVal_updateVal_self (vals : VarStore) (key : String × Nat)
    (d : Arr) :
    lookupVal (updateVal vals key d) key =
      (lookupVal vals key).map (fun v => addArr v d) := by
  induction vals with
  | nil => rfl
  | cons p rest ih =>
      by_cases hp : p.1 = key
      · simp [lookupVal, updateVal, List.find?, hp]
      · simp only [lookupVal, updateVal, List.map_cons] at ih ⊢
        rw [if_neg hp]
        rw [List.find?_cons_of_neg _ (by simpa using hp),
          List.find?_cons_of_neg _ (by simpa using hp)]
        exact ih

theorem lookupVal_updateVal_other (vals : VarStore) (key key' : String × Nat)
    (d : Arr) (hne : key' ≠ key) :
    lookupVal (updateVal vals key d) key' = lookupVal vals key' := by
  induction vals with
  | nil => rfl
  | cons p rest ih =>
      simp only [updateVal, List.map_cons] at ih ⊢
      by_cases hp : p.1 = key
      · have hnk : ¬(p.1 = key') := by
          rw [hp]
          exact fun hc => hne hc.symm
        rw [if_pos hp, lookupVal, List.find?_cons_of_neg _ (by simpa using hnk),
          lookupVal, List.find?_cons_of_neg _ (by simpa using hnk)]
        exact ih
      · rw [if_neg hp]
        by_cases hp' : p.1 = key'
        · rw [lookupVal, List.find?_cons_of_pos _ (by simpa using hp'),
            lookupVal, List.find?_cons_of_pos _ (by simpa using hp')]
        · rw [lookupVal, List.find?_cons_of_neg _ (by simpa using hp'),
            lookupVal, List.find?_cons_of_neg _ (by simpa using hp')]
          exact ih

theorem distributeAdditive_frame :
    ∀ (entries : List DofEntry) (inc : Arr) (vals : VarStore)
      (key : String × Nat), key ∉ entries.map entryKey →
      lookupVal (distributeAdditive entries inc vals) key = lookupVal vals key := by
  intro entries
  induction entries with
  | nil => intro inc vals key _; rfl
  | cons e rest ih =>
      intro inc vals key hk
      rw [distributeAdditive]
      rw [ih inc _ key (fun hc => hk (List.mem_cons_of_mem _ hc))]
      exact lookupVal_updateVal_other vals (entryKey e) key _
        (fun hc => hk (hc ▸ List.mem_cons_self _ _))

theorem distributeAdditive_lookup :
    ∀ (entries : List DofEntry) (e : DofEntry) (inc : Arr) (vals : VarStore)
      (v : Arr), (entries.map entryKey).Nodup → e ∈ entries →
      lookupVal vals (entryKey e) = some v →
      lookupVal (distributeAdditive entries inc vals) (entryKey e) =
        some (addArr v (sliceArr inc e.offset e.length)) := by
  intro entries
  induction entries with
  | nil =>
      intro e inc vals v _ he _
      exact absurd he (List.not_mem_nil e)
  | cons e0 rest ih =>
      intro e inc vals v hnd he hv
      rw [List.map_cons, List.nodup_cons] at hnd
      rcases List.mem_cons.mp he with rfl | hmem
      · rw [distributeAdditive,
          distributeAdditive_frame rest inc _ (entryKey e) hnd.1,
          lookupVal_updateVal_self, hv]
        rfl
      · have hne : entryKey e ≠ entryKey e0 := fun hc =>
          hnd.1 (hc ▸ List.mem_map_of_mem entryKey hmem)
        rw [distributeAdditive]
        exact ih e inc _ v hnd.2 hmem
          (by rw [lookupVal_updateVal_other vals (entryKey e0) (entryKey e) _ hne]
              exact hv)

/-- C7: distributing a solved increment with `additive: true` is additive —
after distribution the value stored for a registered (variable, entity) equals
the old value plus that range's increment slice — and the core's other
state-writing pass, `discretize`, never touches variable values. -/
theorem distribute_additive_only_mutation (entries : List DofEntry)
    (e : DofEntry) (inc : Arr) (vals : VarStore) (v : Arr)
    (hnd : (entries.map entryKey).Nodup) (he : e ∈ entries)
    (hv : lookupVal vals (entryKey e) = some v) :
    lookupVal (distributeAdditive entries inc vals) (entryKey e) =
      some (addArr v (sliceArr inc e.offset e.length))
    ∧ ∀ (ext : String → Mat) (op : Operator) (st : CoreState),
        (discretize ext op st).values = st.values :=
  ⟨distributeAdditive_lookup entries e inc vals v hnd he hv,
    fun _ _ _ => rfl⟩

theorem distribute_additive_only_mutation_witness :
    lookupVal
        (distributeAdditive [⟨"pressure", 0, 0, 2⟩, ⟨"mortar_flux", 1, 2, 1⟩]
          [10, 20, 30] [(("pressure", 0), [1, 2]), (("mortar_flux", 1), [3])])
        (entryKey ⟨"pressure", 0, 0, 2⟩) = some [11, 22]
    ∧ (discretize (fun _ => []) (.const [1]) ⟨[], []⟩).values = [] := by
  have h := distribute_additive_only_mutation
    [⟨"pressure", 0, 0, 2⟩, ⟨"mortar_flux", 1, 2, 1⟩] ⟨"pressure", 0, 0, 2⟩
    [10, 20, 30] [(("pressure", 0), [1, 2]), (("mortar_flux", 1), [3])] [1, 2]
    (by decide) (by decide) (by decide)
  refine ⟨?_, h.2 (fun _ => []) (.const [1]) ⟨[], []⟩⟩
  rw [h.1]
  norm_num [addArr, sliceArr]

end PorePyAd
